import Mathlib

/-!
Verification of the phenology-extraction and trend-analysis pipeline.

The definitions below are a shallow embedding of the numerical core of the
repository:

* `src/scripts/extract_phenology.py` — per-pixel phenology metrics
  (`peakDoy`, `sosDoy`, `eosDoy`, `amplitude`, `threshold`) computed from the
  harmonically smoothed daily curve of one pixel and one year.  A daily curve
  is modelled as a function `Nat → ℚ` read on days `1..365`
  (`ee.List.sequence(1, 365)` in the source).
* `src/scripts/analyze_phenology.py` — the joint validity mask applied to the
  exported sos/eos/peak bands, and the per-pixel OLS trend
  (`scipy.stats.linregress` over the year index).
* `src/scripts/analyze_phenology_by_veg.py` — zonal (per land-cover-class)
  mean aggregation of a metric raster.
* the harmonic least-squares fit (`ee.Reducer.linearRegression`), whose error
  discipline is executed inside the Earth Engine service and is therefore
  modelled from the spec where noted.

Machine floats are modelled as exact rationals (`ℚ`); the IEEE `NaN` used as
the missing-value sentinel is modelled as `Option.none`, with the
NaN-propagation of arithmetic made explicit at each operation that meets it.
-/

namespace Spec2Proof

/-! ### Daily phenology metrics (src/scripts/extract_phenology.py) -/

/-- Days of year scanned by the extractor: `ee.List.sequence(1, 365)`
(src/scripts/extract_phenology.py line 73). -/
def days : List Nat := List.range' 1 365

/-- Minimum of the smoothed daily curve:
`daily_smoothed_collection.select('NDVI').min()` (line 95). -/
def minNdvi (c : Nat → ℚ) : ℚ := ((days.map c).min?).getD 0

/-- Maximum of the smoothed daily curve, the NDVI value selected by
`qualityMosaic('NDVI')` (lines 92 and 94). -/
def maxNdvi (c : Nat → ℚ) : ℚ := ((days.map c).max?).getD 0

/-- `amplitude = max_ndvi.subtract(min_ndvi)` (line 98). -/
def amplitude (c : Nat → ℚ) : ℚ := maxNdvi c - minNdvi c

/-- `threshold = min_ndvi.add(amplitude.multiply(0.5))` with
`amplitude_threshold = 0.5` (lines 24 and 99). -/
def threshold (c : Nat → ℚ) : ℚ := minNdvi c + amplitude c * (1 / 2)

/-- Per-pixel best-day selection underlying `qualityMosaic`: fold over the
daily collection keeping the current day unless a strictly larger quality
value appears.  Modelled from the spec: `qualityMosaic` itself runs inside
the Earth Engine service; the spec fixes its tie rule to the first occurrence
of the maximum, which is what a strict-improvement fold implements. -/
def argmaxFrom (c : Nat → ℚ) : Nat → List Nat → Nat
  | b, [] => b
  | b, d :: ds => argmaxFrom c (if c b < c d then d else b) ds

/-- `peak_doy`: the day-of-year band of `qualityMosaic('NDVI')`
(lines 92 and 93), folding the daily collection from day 1. -/
def peakDoy (c : Nat → ℚ) : Nat := argmaxFrom c 1 (List.range' 2 364)

/-- Per-day SOS image: `greenup_phase` is `NDVI.gt(threshold)` (1 or 0,
line 102), `sos_image` replaces the 0 entries by 1000 (line 105), and is then
multiplied by the `doy` band (line 106): an above-threshold day `d`
contributes `d`, any other day contributes `1000 * d`. -/
def sosImage (c : Nat → ℚ) : List Nat :=
  days.map fun d => if threshold c < c d then d else 1000 * d

/-- `sos_doy`: minimum of the sos image over the collection (line 106). -/
def sosDoy (c : Nat → ℚ) : Nat := ((sosImage c).min?).getD 0

/-- Per-day EOS image: `senescence_phase` is `NDVI.lt(threshold)` (line 109),
`eos_image` replaces its 0 entries by 1000 (line 110) and is multiplied by
`doy`: a below-threshold day `d` contributes `d`, any other day contributes
`1000 * d`. -/
def eosImage (c : Nat → ℚ) : List Nat :=
  days.map fun d => if c d < threshold c then d else 1000 * d

/-- `eos_doy`: minimum of the eos image over the collection, minus one
(line 111). -/
def eosDoy (c : Nat → ℚ) : Nat := ((eosImage c).min?).getD 0 - 1

/-! ### Validity mask (src/scripts/analyze_phenology.py lines 41-47) -/

/-- The joint validity mask
`(sos_ts > 0) & (sos_ts < 366) & (eos_ts > 0) & (eos_ts < 366)` (line 42). -/
def validMask (sos eos : Nat) : Bool :=
  decide (0 < sos) && decide (sos < 366) && decide (0 < eos) && decide (eos < 366)

/-- Application of the mask to the three bands (lines 45-47): where the mask
is false, sos, eos and peak are all replaced by the NaN sentinel, modelled as
`none`. -/
def maskedTriple (sos eos peak : Nat) : Option Nat × Option Nat × Option Nat :=
  if validMask sos eos then (some sos, some eos, some peak) else (none, none, none)

/-! ### Per-pixel OLS trend (src/scripts/analyze_phenology.py lines 57-77) -/

/-- Arithmetic mean of a list of rationals (`0` on the empty list, matching
the `0 / 0 = 0` convention of `ℚ` division). -/
def qmean (l : List ℚ) : ℚ := l.sum / l.length

/-- Ordinary least-squares slope of a list of `(x, y)` points, as computed by
`scipy.stats.linregress`: covariance of `x` and `y` over variance of `x`
(both centred by the respective means). -/
def slopeOfPairs (ps : List (ℚ × ℚ)) : ℚ :=
  (ps.map fun p =>
      (p.1 - qmean (ps.map Prod.fst)) * (p.2 - qmean (ps.map Prod.snd))).sum /
    (ps.map fun p =>
      (p.1 - qmean (ps.map Prod.fst)) * (p.1 - qmean (ps.map Prod.fst))).sum

/-- Collector for `validPairs`, walking the series with its year index. -/
def validPairsFrom (i : Nat) : List (Option ℚ) → List (ℚ × ℚ)
  | [] => []
  | none :: rest => validPairsFrom (i + 1) rest
  | some v :: rest => ((i : ℚ), v) :: validPairsFrom (i + 1) rest

/-- The valid `(year index, value)` pairs of a per-pixel metric series whose
missing (NaN) entries are modelled as `none`: the `(np.arange(n), series)`
pairing restricted to the valid years. -/
def validPairs (s : List (Option ℚ)) : List (ℚ × ℚ) := validPairsFrom 0 s

/-- `np.count_nonzero(~np.isnan(series))`: the number of valid (non-NaN)
years of a pixel series (lines 73 and 76). -/
def validCount (s : List (Option ℚ)) : Nat := (s.filterMap id).length

/-- `linregress(years, series).slope` with `years = np.arange(len(series))`
(lines 57, 74 and 77).  The series is passed unfiltered, so one NaN entry
makes every mean and sum NaN and the slope itself NaN: this IEEE
NaN-propagation is modelled by returning `none` whenever any entry of the
series is `none` (when every entry is valid, the regressed pairs are exactly
`validPairs`). -/
def linregressSlopeOpt (s : List (Option ℚ)) : Option ℚ :=
  if s.all Option.isSome then some (slopeOfPairs (validPairs s)) else none

/-- The per-pixel trend of lines 63-77: the slope raster is prefilled with
NaN and a pixel is regressed only when strictly more than 5 valid years
exist. -/
def pixelSlope (s : List (Option ℚ)) : Option ℚ :=
  if 5 < validCount s then linregressSlopeOpt s else none

/-- Trend labels of a TrendResult. -/
inductive TrendLabel
  | increasing
  | decreasing
  | noTrend
deriving DecidableEq

/-- Modelled from the spec: the repository's OLS path computes only the
slope (src/scripts/analyze_phenology.py lines 74 and 77) and produces no
trend label; the spec's TrendEngine derives the label from the sign of the
slope (`increasing` / `decreasing` / `no_trend`). -/
def olsTrendLabel (slope : ℚ) : TrendLabel :=
  if 0 < slope then .increasing else if slope < 0 then .decreasing else .noTrend

/-! ### Harmonic least-squares fitter (src/scripts/extract_phenology.py
lines 62-70) -/

/-- Failure modes of the harmonic fit. -/
inductive FitError
  | insufficientData
  | singularSystem
deriving DecidableEq

/-- The valid `(timestamp, value)` samples of one pixel's observation series;
masked values are modelled as `none`. -/
def validSamples (s : List (ℚ × Option ℚ)) : List (ℚ × ℚ) :=
  s.filterMap fun p => p.2.map fun v => (p.1, v)

/-- Design matrix of the harmonic regression: one row per valid sample, one
column per regressor band.  The source builds the bands
`['constant', 'cos_1', 'sin_1', ..., 'cos_K', 'sin_K']` (lines 63-65), i.e.
`2*K+1` columns whose first column is the constant `1` (`ee.Image(1)`,
line 78); the trigonometric entries are transcendental, so the row-builder
`b` is kept as a parameter constrained by that constant first column. -/
def designMatrix (K : Nat) (b : ℚ → Fin (2 * K + 1) → ℚ) (vs : List (ℚ × ℚ)) :
    Matrix (Fin vs.length) (Fin (2 * K + 1)) ℚ :=
  Matrix.of fun i j => b (vs.get i).1 j

/-- Observation vector of the regression: the NDVI value of each valid
sample. -/
def obsVec (vs : List (ℚ × ℚ)) : Fin vs.length → ℚ := fun i => (vs.get i).2

/-- Modelled from the spec: the least-squares solve itself happens inside
`ee.Reducer.linearRegression(numX=2*K+1, numY=1)` (line 70) on the Earth
Engine service, outside the repository.  Following the spec's contract, the
fit fails with `insufficientData` when fewer than `2*K+2` valid samples
exist, fails with `singularSystem` when the normal matrix of the design is
singular, and otherwise returns the coefficient vector of length `2*K+1`
solving the unregularized least-squares problem via the normal equations
(Cramer solution by the adjugate). -/
def harmonicFit (K : Nat) (b : ℚ → Fin (2 * K + 1) → ℚ)
    (samples : List (ℚ × Option ℚ)) : Except FitError (Fin (2 * K + 1) → ℚ) :=
  let vs := validSamples samples
  if vs.length < 2 * K + 2 then .error .insufficientData
  else
    let A := designMatrix K b vs
    let N := A.transpose * A
    if N.det = 0 then .error .singularSystem
    else .ok ((N.det)⁻¹ • (N.adjugate.mulVec (A.transpose.mulVec (obsVec vs))))

/-! ### Zonal aggregation (src/scripts/analyze_phenology_by_veg.py
lines 62-95) -/

/-- One pixel row of the flattened DataFrame (lines 62-73): land-cover class
id paired with the metric value, whose NaN nodata is modelled as `none`. -/
def zonalRows (lc : List ℤ) (metric : List (Option ℚ)) : List (ℤ × Option ℚ) :=
  lc.zip metric

/-- The cleaning filter of lines 78-87: a row is kept when its class id is
not the land-cover nodata value (when one is declared), its metric value is
not NaN (the `~np.isnan` filter together with the final `dropna`), and its
class is not in the excluded-class list (`~df['LC_Type_ID'].isin([...])`). -/
def keepRow (lcNodata : Option ℤ) (excluded : List ℤ) (r : ℤ × Option ℚ) : Bool :=
  (match lcNodata with
    | some n => decide (r.1 ≠ n)
    | none => true) &&
  r.2.isSome && decide (r.1 ∉ excluded)

/-- `df.groupby('LC_Type_ID').mean()` (line 95) after cleaning: one output
row per class id still present, carrying the arithmetic mean of the metric
over that class's remaining pixels.  The output order (pandas sorts group
keys) is abstracted to first appearance; the claims under test are about
membership and values only. -/
def zonalMeans (lc : List ℤ) (metric : List (Option ℚ)) (lcNodata : Option ℤ)
    (excluded : List ℤ) : List (ℤ × ℚ) :=
  let f := (zonalRows lc metric).filter (keepRow lcNodata excluded)
  ((f.map Prod.fst).dedup).map fun cl =>
    (cl, qmean ((f.filter fun r => decide (r.1 = cl)).filterMap Prod.snd))

/-! ### Concrete inputs used by witnesses and counterexamples -/

/-- A clean single-peaked seasonal bump: above the mid-amplitude threshold
exactly on the contiguous day range `[100, 200]`. -/
def bump : Nat → ℚ := fun d => if 100 ≤ d ∧ d ≤ 200 then 1 else 0

/-- A constant (perfectly flat) daily curve. -/
def flat7 : Nat → ℚ := fun _ => 7

/-- A pixel metric series with seven valid years (values `10, 12, ..., 22`
at year indices `0..6`) and one missing year at index 7. -/
def series7of8 : List (Option ℚ) :=
  [some 10, some 12, some 14, some 16, some 18, some 20, some 22, none]

/-- The 2x2 example raster of the spec, flattened: metric values
`[1, 2, 3, 4]` and zone map `[5, 5, 9, 9]` (class A is id 5, class B is
id 9). -/
def exMetric : List (Option ℚ) := [some 1, some 2, some 3, some 4]

/-- Zone map of the 2x2 example. -/
def exZones : List ℤ := [5, 5, 9, 9]

/-- The claim's description of the contributing values of one class: the
valid (non-NaN) metric values of exactly the pixels assigned to class `cl`.
This is the spec-side reference list that `zonalMeans` is compared
against. -/
def classValues (lc : List ℤ) (metric : List (Option ℚ)) (cl : ℤ) : List ℚ :=
  ((zonalRows lc metric).filter fun r => decide (r.1 = cl)).filterMap Prod.snd

/-! ### Generic list minimum/maximum helper lemmas -/

/-- Characterisation of `List.min?` on a linear order: it returns exactly the
least element of the list. -/
theorem listMin_eq_some_iff {α : Type} [LinearOrder α] {l : List α} {a : α} :
    l.min? = some a ↔ a ∈ l ∧ ∀ b ∈ l, a ≤ b := by
  have anti : Std.Antisymm ((· : α) ≤ ·) := ⟨fun hab hba => le_antisymm hab hba⟩
  exact List.min?_eq_some_iff le_refl min_choice (fun _ _ _ => le_min_iff)

/-- Characterisation of `List.max?` on a linear order: it returns exactly the
greatest element of the list. -/
theorem listMax_eq_some_iff {α : Type} [LinearOrder α] {l : List α} {a : α} :
    l.max? = some a ↔ a ∈ l ∧ ∀ b ∈ l, b ≤ a := by
  have anti : Std.Antisymm ((· : α) ≤ ·) := ⟨fun hab hba => le_antisymm hab hba⟩
  exact List.max?_eq_some_iff le_refl max_choice (fun _ _ _ => max_le_iff)

/-- A nonempty list has a `min?`, so `min?.getD` is its least element. -/
theorem listMin_getD_spec {α : Type} [LinearOrder α] {l : List α} (h : l ≠ []) (d : α) :
    (l.min?.getD d) ∈ l ∧ ∀ b ∈ l, (l.min?.getD d) ≤ b := by
  cases hm : l.min? with
  | none => exact absurd (List.min?_eq_none_iff.mp hm) h
  | some a =>
    have := listMin_eq_some_iff.mp hm
    simpa using this

/-- A nonempty list has a `max?`, so `max?.getD` is its greatest element. -/
theorem listMax_getD_spec {α : Type} [LinearOrder α] {l : List α} (h : l ≠ []) (d : α) :
    (l.max?.getD d) ∈ l ∧ ∀ b ∈ l, b ≤ (l.max?.getD d) := by
  cases hm : l.max? with
  | none => exact absurd (List.max?_eq_none_iff.mp hm) h
  | some a =>
    have := listMax_eq_some_iff.mp hm
    simpa using this

/-! ### Facts about the day list -/

/-- Membership in the scanned day range. -/
theorem mem_days {d : Nat} : d ∈ days ↔ 1 ≤ d ∧ d ≤ 365 := by
  simp only [days, List.mem_range'_1]
  omega

/-- The day list is nonempty. -/
theorem days_ne_nil : days ≠ [] := by
  intro h
  have h1 : (1 : Nat) ∈ days := mem_days.mpr ⟨le_refl 1, by omega⟩
  rw [h] at h1
  exact absurd h1 (List.not_mem_nil 1)

/-- The day list starts at day 1. -/
theorem days_eq_cons : days = 1 :: List.range' 2 364 := rfl

/-! ### Curve extrema -/

/-- The daily minimum bounds every daily value from below. -/
theorem minNdvi_le {c : Nat → ℚ} {d : Nat} (hd : d ∈ days) : minNdvi c ≤ c d := by
  have hne : days.map c ≠ [] := by
    intro h
    exact days_ne_nil (List.map_eq_nil_iff.mp h)
  exact (listMin_getD_spec hne 0).2 (c d) (List.mem_map_of_mem c hd)

/-- The daily maximum bounds every daily value from above. -/
theorem le_maxNdvi {c : Nat → ℚ} {d : Nat} (hd : d ∈ days) : c d ≤ maxNdvi c := by
  have hne : days.map c ≠ [] := by
    intro h
    exact days_ne_nil (List.map_eq_nil_iff.mp h)
  exact (listMax_getD_spec hne 0).2 (c d) (List.mem_map_of_mem c hd)

/-- A day strictly above the threshold forces a strictly positive
amplitude-weighted gap, so the minimum is strictly below the threshold. -/
theorem minNdvi_lt_threshold {c : Nat → ℚ} {d : Nat} (hd : d ∈ days)
    (h : threshold c < c d) : minNdvi c < threshold c := by
  by_contra hcon
  push_neg at hcon
  have hle : c d ≤ maxNdvi c := le_maxNdvi hd
  have hmin : minNdvi c ≤ c d := minNdvi_le hd
  unfold threshold amplitude at h hcon
  nlinarith

/-! ### Peak day lemmas -/

/-- The argmax fold lands on the initial day or in the list. -/
theorem argmaxFrom_mem (c : Nat → ℚ) :
    ∀ (l : List Nat) (b : Nat), argmaxFrom c b l ∈ b :: l := by
  intro l
  induction l with
  | nil => intro b; simp [argmaxFrom]
  | cons d ds ih =>
    intro b
    simp only [argmaxFrom]
    by_cases h : c b < c d
    · simp only [if_pos h]
      have := ih d
      rcases List.mem_cons.mp this with h1 | h1
      · simp [h1]
      · simp [List.mem_cons, h1]
    · simp only [if_neg h]
      have := ih b
      rcases List.mem_cons.mp this with h1 | h1
      · simp [h1]
      · simp [List.mem_cons, h1]

/-- The argmax fold never decreases the tracked value. -/
theorem le_argmaxFrom_init (c : Nat → ℚ) :
    ∀ (l : List Nat) (b : Nat), c b ≤ c (argmaxFrom c b l) := by
  intro l
  induction l with
  | nil => intro b; simp [argmaxFrom]
  | cons d ds ih =>
    intro b
    simp only [argmaxFrom]
    by_cases h : c b < c d
    · simp only [if_pos h]
      exact le_of_lt (lt_of_lt_of_le h (ih d))
    · simp only [if_neg h]
      exact ih b

/-- The argmax fold dominates every listed day. -/
theorem le_argmaxFrom (c : Nat → ℚ) :
    ∀ (l : List Nat) (b : Nat) (d : Nat), d ∈ l → c d ≤ c (argmaxFrom c b l) := by
  intro l
  induction l with
  | nil => intro b d hd; exact absurd hd (List.not_mem_nil d)
  | cons e ds ih =>
    intro b d hd
    simp only [argmaxFrom]
    rcases List.mem_cons.mp hd with h1 | h1
    · subst h1
      by_cases h : c b < c d
      · simp only [if_pos h]
        exact le_argmaxFrom_init c ds d
      · simp only [if_neg h]
        push_neg at h
        exact le_trans h (le_argmaxFrom_init c ds b)
    · by_cases h : c b < c e
      · simp only [if_pos h]
        exact ih e d h1
      · simp only [if_neg h]
        exact ih b d h1

/-- If the fold never sees a strict improvement it keeps its initial day. -/
theorem argmaxFrom_keep (c : Nat → ℚ) :
    ∀ (l : List Nat) (b : Nat), (∀ d ∈ l, ¬ c b < c d) → argmaxFrom c b l = b := by
  intro l
  induction l with
  | nil => intro b _; rfl
  | cons d ds ih =>
    intro b h
    simp only [argmaxFrom, if_neg (h d (List.mem_cons_self d ds))]
    exact ih b fun e he => h e (List.mem_cons_of_mem d he)

/-- First-occurrence property of the strict-improvement fold: on a strictly
increasing candidate list whose elements all exceed the initial day, the
selected day is at most any candidate attaining an equal or larger value. -/
theorem argmaxFrom_first (c : Nat → ℚ) :
    ∀ (l : List Nat) (b : Nat), (∀ d ∈ l, b < d) → l.Pairwise (· < ·) →
      ∀ x ∈ b :: l, c (argmaxFrom c b l) ≤ c x → argmaxFrom c b l ≤ x := by
  intro l
  induction l with
  | nil =>
    intro b _ _ x hx _
    rcases List.mem_cons.mp hx with h1 | h1
    · simp [argmaxFrom, h1]
    · exact absurd h1 (List.not_mem_nil x)
  | cons d ds ih =>
    intro b hlb hpw x hx hcx
    have hpw_tail : ds.Pairwise (· < ·) := (List.pairwise_cons.mp hpw).2
    simp only [argmaxFrom] at hcx ⊢
    by_cases h : c b < c d
    · simp only [if_pos h] at hcx ⊢
      have hd_lt : ∀ e ∈ ds, d < e := (List.pairwise_cons.mp hpw).1
      rcases List.mem_cons.mp hx with h1 | h1
      · exfalso
        have h2 : c b < c (argmaxFrom c d ds) := lt_of_lt_of_le h (le_argmaxFrom_init c ds d)
        rw [h1] at hcx
        exact absurd (lt_of_lt_of_le h2 hcx) (lt_irrefl (c b))
      · exact ih d hd_lt hpw_tail x h1 hcx
    · simp only [if_neg h] at hcx ⊢
      have hlb_tail : ∀ e ∈ ds, b < e := fun e he => hlb e (List.mem_cons_of_mem d he)
      rcases List.mem_cons.mp hx with h1 | h1
      · rw [h1]
        rw [h1] at hcx
        exact ih b hlb_tail hpw_tail b (List.mem_cons_self b ds) hcx
      · rcases List.mem_cons.mp h1 with h2 | h2
        · rw [h2]
          rw [h2] at hcx
          by_cases hAb : argmaxFrom c b ds = b
          · rw [hAb]
            exact le_of_lt (hlb d (List.mem_cons_self d ds))
          · exfalso
            have hex : ¬ ∀ e ∈ ds, ¬ c b < c e := fun hall => hAb (argmaxFrom_keep c ds b hall)
            push_neg at hex
            obtain ⟨e, he, hbe⟩ := hex
            have h4 : c e ≤ c (argmaxFrom c b ds) := le_argmaxFrom c ds b e he
            push_neg at h
            linarith
        · exact ih b hlb_tail hpw_tail x (List.mem_cons_of_mem b h2) hcx

/-- The peak day lies in the scanned day range. -/
theorem peakDoy_mem (c : Nat → ℚ) : peakDoy c ∈ days := by
  have := argmaxFrom_mem c (List.range' 2 364) 1
  rw [days_eq_cons]
  exact this

/-- The peak day attains the maximum of the daily curve. -/
theorem le_peakDoy_val {c : Nat → ℚ} {d : Nat} (hd : d ∈ days) :
    c d ≤ c (peakDoy c) := by
  rw [days_eq_cons] at hd
  rcases List.mem_cons.mp hd with h1 | h1
  · subst h1
    exact le_argmaxFrom_init c (List.range' 2 364) 1
  · exact le_argmaxFrom c (List.range' 2 364) 1 d h1

/-- The peak day is the first day attaining its value. -/
theorem peakDoy_first {c : Nat → ℚ} {d : Nat} (hd : d ∈ days)
    (h : c (peakDoy c) ≤ c d) : peakDoy c ≤ d := by
  have hlb : ∀ e ∈ List.range' 2 364, 1 < e := by
    intro e he
    have := List.mem_range'_1.mp he
    omega
  have hpw : (List.range' 2 364).Pairwise (· < ·) := List.pairwise_lt_range' 2 364
  rw [days_eq_cons] at hd
  exact argmaxFrom_first c (List.range' 2 364) 1 hlb hpw d hd h

/-! ### SOS and EOS scan lemmas -/

/-- The sos image is nonempty. -/
theorem sosImage_ne_nil (c : Nat → ℚ) : sosImage c ≠ [] := by
  intro h
  exact days_ne_nil (List.map_eq_nil_iff.mp h)

/-- The eos image is nonempty. -/
theorem eosImage_ne_nil (c : Nat → ℚ) : eosImage c ≠ [] := by
  intro h
  exact days_ne_nil (List.map_eq_nil_iff.mp h)

/-- When some day exceeds the threshold, `sos_doy` is the first such day of
the whole year: the above-threshold days contribute themselves to the
minimum, while every other day contributes at least 1000. -/
theorem sosDoy_spec_above {c : Nat → ℚ}
    (h : ∃ d ∈ days, threshold c < c d) :
    sosDoy c ∈ days ∧ threshold c < c (sosDoy c) ∧
      ∀ d ∈ days, threshold c < c d → sosDoy c ≤ d := by
  obtain ⟨d, hd, habove⟩ := h
  obtain ⟨hmem, hbnd⟩ := listMin_getD_spec (sosImage_ne_nil c) 0
  have hd_in : d ∈ sosImage c := by
    rw [sosImage]
    exact List.mem_map.mpr ⟨d, hd, if_pos habove⟩
  have hmd : sosDoy c ≤ d := hbnd d hd_in
  have hd365 : d ≤ 365 := (mem_days.mp hd).2
  rw [sosImage] at hmem
  obtain ⟨e, he, hme⟩ := List.mem_map.mp hmem
  by_cases hcase : threshold c < c e
  · rw [if_pos hcase] at hme
    rw [show sosDoy c = e from hme.symm]
    refine ⟨he, hcase, ?_⟩
    intro d2 hd2 hab2
    have hd2_in : d2 ∈ sosImage c := by
      rw [sosImage]
      exact List.mem_map.mpr ⟨d2, hd2, if_pos hab2⟩
    rw [hme]
    exact hbnd d2 hd2_in
  · exfalso
    rw [if_neg hcase] at hme
    have he1 : 1 ≤ e := (mem_days.mp he).1
    have hge : 1000 * 1 ≤ 1000 * e := Nat.mul_le_mul_left 1000 he1
    have hlink : sosDoy c = 1000 * e := hme.symm
    omega

/-- When no day exceeds the threshold, the sos minimum degenerates to the
sentinel `1000` (the day-1 entry of the `1000 * doy` image). -/
theorem sosDoy_no_above {c : Nat → ℚ}
    (h : ∀ d ∈ days, ¬ threshold c < c d) : sosDoy c = 1000 := by
  have h1 : (1 : Nat) ∈ days := mem_days.mpr ⟨le_refl 1, by omega⟩
  have hsome : (sosImage c).min? = some 1000 := by
    rw [listMin_eq_some_iff]
    constructor
    · rw [sosImage]
      refine List.mem_map.mpr ⟨1, h1, ?_⟩
      rw [if_neg (h 1 h1)]
    · intro x hx
      rw [sosImage] at hx
      obtain ⟨e, he, hxe⟩ := List.mem_map.mp hx
      rw [if_neg (h e he)] at hxe
      have he1 : 1 ≤ e := (mem_days.mp he).1
      have : 1000 * 1 ≤ 1000 * e := Nat.mul_le_mul_left 1000 he1
      omega
  rw [sosDoy, hsome]
  rfl

/-- When some day falls strictly below the threshold, the eos minimum (before
the final subtraction) is the first such day of the whole year. -/
theorem eosMin_spec_below {c : Nat → ℚ}
    (h : ∃ d ∈ days, c d < threshold c) :
    ((eosImage c).min?.getD 0) ∈ days ∧
      c ((eosImage c).min?.getD 0) < threshold c ∧
      ∀ d ∈ days, c d < threshold c → ((eosImage c).min?.getD 0) ≤ d := by
  obtain ⟨d, hd, hbelow⟩ := h
  obtain ⟨hmem, hbnd⟩ := listMin_getD_spec (eosImage_ne_nil c) 0
  have hd_in : d ∈ eosImage c := by
    rw [eosImage]
    exact List.mem_map.mpr ⟨d, hd, if_pos hbelow⟩
  have hmd : (eosImage c).min?.getD 0 ≤ d := hbnd d hd_in
  have hd365 : d ≤ 365 := (mem_days.mp hd).2
  rw [eosImage] at hmem
  obtain ⟨e, he, hme⟩ := List.mem_map.mp hmem
  by_cases hcase : c e < threshold c
  · rw [if_pos hcase] at hme
    rw [show (eosImage c).min?.getD 0 = e from hme.symm]
    refine ⟨he, hcase, ?_⟩
    intro d2 hd2 hb2
    have hd2_in : d2 ∈ eosImage c := by
      rw [eosImage]
      exact List.mem_map.mpr ⟨d2, hd2, if_pos hb2⟩
    rw [hme]
    exact hbnd d2 hd2_in
  · exfalso
    rw [if_neg hcase] at hme
    have he1 : 1 ≤ e := (mem_days.mp he).1
    have hge : 1000 * 1 ≤ 1000 * e := Nat.mul_le_mul_left 1000 he1
    have hlink : (eosImage c).min?.getD 0 = 1000 * e := hme.symm
    omega

/-- When no day falls below the threshold, `eos_doy` degenerates to the
sentinel `999` (`1000 - 1`). -/
theorem eosDoy_no_below {c : Nat → ℚ}
    (h : ∀ d ∈ days, ¬ c d < threshold c) : eosDoy c = 999 := by
  have h1 : (1 : Nat) ∈ days := mem_days.mpr ⟨le_refl 1, by omega⟩
  have hsome : (eosImage c).min? = some 1000 := by
    rw [listMin_eq_some_iff]
    constructor
    · rw [eosImage]
      refine List.mem_map.mpr ⟨1, h1, ?_⟩
      rw [if_neg (h 1 h1)]
    · intro x hx
      rw [eosImage] at hx
      obtain ⟨e, he, hxe⟩ := List.mem_map.mp hx
      rw [if_neg (h e he)] at hxe
      have he1 : 1 ≤ e := (mem_days.mp he).1
      have : 1000 * 1 ≤ 1000 * e := Nat.mul_le_mul_left 1000 he1
      omega
  rw [eosDoy, hsome]
  rfl

/-- Shared helper for the EOS early-exit behaviour: a curve whose day-1 value
lies strictly below the threshold gets `eos_doy = 0` and is then wholly
masked out. -/
theorem eos_zero_and_masked {c : Nat → ℚ} (h : c 1 < threshold c) :
    eosDoy c = 0 ∧
      maskedTriple (sosDoy c) (eosDoy c) (peakDoy c) = (none, none, none) := by
  have h1 : (1 : Nat) ∈ days := mem_days.mpr ⟨le_refl 1, by omega⟩
  obtain ⟨hmem, hblw, hleast⟩ := eosMin_spec_below ⟨1, h1, h⟩
  have hm1 : (eosImage c).min?.getD 0 ≤ 1 := hleast 1 h1 h
  have h1m : 1 ≤ (eosImage c).min?.getD 0 := (mem_days.mp hmem).1
  have heos : eosDoy c = 0 := by
    rw [eosDoy]
    omega
  refine ⟨heos, ?_⟩
  rw [heos, maskedTriple]
  have hmask : validMask (sosDoy c) 0 = false := by
    simp [validMask]
  rw [if_neg (by simp [hmask])]

/-! ### Constant-curve and bump-curve helper facts -/

/-- On a constant curve the daily minimum is the constant. -/
theorem minNdvi_const {c : Nat → ℚ} {v : ℚ} (h : ∀ d ∈ days, c d = v) :
    minNdvi c = v := by
  have hne : days.map c ≠ [] := by
    intro hc
    exact days_ne_nil (List.map_eq_nil_iff.mp hc)
  obtain ⟨hmem, _⟩ := listMin_getD_spec hne 0
  obtain ⟨e, he, hme⟩ := List.mem_map.mp hmem
  rw [minNdvi, ← hme, h e he]

/-- On a constant curve the daily maximum is the constant. -/
theorem maxNdvi_const {c : Nat → ℚ} {v : ℚ} (h : ∀ d ∈ days, c d = v) :
    maxNdvi c = v := by
  have hne : days.map c ≠ [] := by
    intro hc
    exact days_ne_nil (List.map_eq_nil_iff.mp hc)
  obtain ⟨hmem, _⟩ := listMax_getD_spec hne 0
  obtain ⟨e, he, hme⟩ := List.mem_map.mp hmem
  rw [maxNdvi, ← hme, h e he]

/-- The bump curve takes values in `{0, 1}`: lower bound. -/
theorem bump_nonneg (d : Nat) : 0 ≤ bump d := by
  unfold bump
  split <;> norm_num

/-- The bump curve takes values in `{0, 1}`: upper bound. -/
theorem bump_le_one (d : Nat) : bump d ≤ 1 := by
  unfold bump
  split <;> norm_num

/-- The daily minimum of the bump curve. -/
theorem minNdvi_bump : minNdvi bump = 0 := by
  have hne : days.map bump ≠ [] := by
    intro hc
    exact days_ne_nil (List.map_eq_nil_iff.mp hc)
  obtain ⟨hmem, hbnd⟩ := listMin_getD_spec hne 0
  have h1 : (1 : Nat) ∈ days := mem_days.mpr ⟨le_refl 1, by omega⟩
  have hle : minNdvi bump ≤ bump 1 := hbnd (bump 1) (List.mem_map_of_mem bump h1)
  have hb1 : bump 1 = 0 := by norm_num [bump]
  obtain ⟨e, _, hme⟩ := List.mem_map.mp hmem
  have hge : 0 ≤ minNdvi bump := by
    rw [minNdvi, ← hme]
    exact bump_nonneg e
  rw [hb1] at hle
  exact le_antisymm hle hge

/-- The daily maximum of the bump curve. -/
theorem maxNdvi_bump : maxNdvi bump = 1 := by
  have hne : days.map bump ≠ [] := by
    intro hc
    exact days_ne_nil (List.map_eq_nil_iff.mp hc)
  obtain ⟨hmem, hbnd⟩ := listMax_getD_spec hne 0
  have h150 : (150 : Nat) ∈ days := mem_days.mpr (by omega)
  have hge : bump 150 ≤ maxNdvi bump := hbnd (bump 150) (List.mem_map_of_mem bump h150)
  have hb150 : bump 150 = 1 := by norm_num [bump]
  obtain ⟨e, _, hme⟩ := List.mem_map.mp hmem
  have hle : maxNdvi bump ≤ 1 := by
    rw [maxNdvi, ← hme]
    exact bump_le_one e
  rw [hb150] at hge
  exact le_antisymm hle hge

/-- The dynamic threshold of the bump curve is the mid-amplitude value. -/
theorem threshold_bump : threshold bump = 1 / 2 := by
  rw [threshold, amplitude, minNdvi_bump, maxNdvi_bump]
  norm_num

/-- The peak of the bump curve is the first day of its plateau. -/
theorem peakDoy_bump : peakDoy bump = 100 := by
  have h100 : (100 : Nat) ∈ days := mem_days.mpr (by omega)
  have h150 : (150 : Nat) ∈ days := mem_days.mpr (by omega)
  have hb100 : bump 100 = 1 := by norm_num [bump]
  have hb150 : bump 150 = 1 := by norm_num [bump]
  have hup : bump (peakDoy bump) ≤ bump 100 := by
    rw [hb100]
    exact bump_le_one _
  have hle : peakDoy bump ≤ 100 := peakDoy_first h100 hup
  have hpk1 : (1 : ℚ) ≤ bump (peakDoy bump) := by
    rw [← hb150]
    exact le_peakDoy_val h150
  have hge : 100 ≤ peakDoy bump := by
    by_contra hcon
    push_neg at hcon
    have : bump (peakDoy bump) = 0 := if_neg (by omega)
    rw [this] at hpk1
    norm_num at hpk1
  omega

/-! ### Claim C2 -/

/-- C2.  For every daily curve, `sos_doy` equals the first day whose value
exceeds the threshold scanning the days in ascending order up to `peak_doy`
(it lies in the day range, does not exceed the peak day, exceeds the
threshold, and is at most every day at or before the peak that exceeds the
threshold); when no day at or before the peak exceeds the threshold,
`sos_doy` is the sentinel `1000`, which lies outside the valid range and is
rejected by the downstream validity mask. -/
theorem claim2_sos_first_above (c : Nat → ℚ) :
    (∀ d, d ∈ days → d ≤ peakDoy c → threshold c < c d →
      (sosDoy c ∈ days ∧ sosDoy c ≤ peakDoy c ∧ threshold c < c (sosDoy c) ∧
        ∀ e, e ∈ days → e ≤ peakDoy c → threshold c < c e → sosDoy c ≤ e)) ∧
    ((∀ d, d ∈ days → d ≤ peakDoy c → ¬ threshold c < c d) →
      sosDoy c = 1000 ∧ ∀ eos, validMask (sosDoy c) eos = false) := by
  constructor
  · intro d hd _ hab
    obtain ⟨hmem, habove, hleast⟩ := sosDoy_spec_above ⟨d, hd, hab⟩
    have hpk_ab : threshold c < c (peakDoy c) := lt_of_lt_of_le hab (le_peakDoy_val hd)
    have hle_pk : sosDoy c ≤ peakDoy c := hleast (peakDoy c) (peakDoy_mem c) hpk_ab
    exact ⟨hmem, hle_pk, habove, fun e he _ habe => hleast e he habe⟩
  · intro h
    have hnone : ∀ d ∈ days, ¬ threshold c < c d := by
      intro d hd hab
      have hpk_ab : threshold c < c (peakDoy c) := lt_of_lt_of_le hab (le_peakDoy_val hd)
      exact h (peakDoy c) (peakDoy_mem c) (le_refl _) hpk_ab
    have hs := sosDoy_no_above hnone
    refine ⟨hs, ?_⟩
    intro eos
    rw [hs]
    rfl

/-- Witness for C2 on the bump curve: day 100 is at or before the peak and
above the threshold, and the conclusion then places `sos_doy` at or before
the peak and above the threshold. -/
theorem claim2_sos_first_above_witness :
    (100 ∈ days ∧ 100 ≤ peakDoy bump ∧ threshold bump < bump 100) ∧
      sosDoy bump ∈ days ∧ sosDoy bump ≤ peakDoy bump ∧
        threshold bump < bump (sosDoy bump) := by
  have h1 : (100 : Nat) ∈ days := mem_days.mpr (by omega)
  have h2 : (100 : Nat) ≤ peakDoy bump := by rw [peakDoy_bump]
  have h3 : threshold bump < bump 100 := by
    rw [threshold_bump]
    norm_num [bump]
  have hc := (claim2_sos_first_above bump).1 100 h1 h2 h3
  exact ⟨⟨h1, h2, h3⟩, hc.1, hc.2.1, hc.2.2.1⟩

/-! ### Claim C9 -/

/-- C9.  For every daily curve, `peak_doy` is an argmax of the curve over the
scanned days, and it is the first such day: any day attaining at least its
value lies at or after it. -/
theorem claim9_peak_first_argmax (c : Nat → ℚ) :
    peakDoy c ∈ days ∧ (∀ d, d ∈ days → c d ≤ c (peakDoy c)) ∧
      (∀ d, d ∈ days → c (peakDoy c) ≤ c d → peakDoy c ≤ d) :=
  ⟨peakDoy_mem c, fun _ hd => le_peakDoy_val hd, fun _ hd h => peakDoy_first hd h⟩

/-- Witness for C9 on the bump curve: the peak dominates day 150 and ties
resolve to the first day (the peak is at most day 100, the first plateau
day). -/
theorem claim9_peak_first_argmax_witness :
    peakDoy bump ∈ days ∧ bump 150 ≤ bump (peakDoy bump) ∧ peakDoy bump ≤ 100 := by
  have h100 : (100 : Nat) ∈ days := mem_days.mpr (by omega)
  have h150 : (150 : Nat) ∈ days := mem_days.mpr (by omega)
  refine ⟨(claim9_peak_first_argmax bump).1,
    (claim9_peak_first_argmax bump).2.1 150 h150,
    (claim9_peak_first_argmax bump).2.2 100 h100 ?_⟩
  have hb100 : bump 100 = 1 := by norm_num [bump]
  rw [hb100]
  exact bump_le_one _

/-! ### Claim C3 -/

/-- C3.  For every daily curve whose day-1 value lies strictly below the
threshold, `eos_doy` evaluates to `0`, which is outside the valid
day-of-year range; the downstream joint validity mask then replaces sos, eos
and peak all by the undefined sentinel for that pixel-year. -/
theorem claim3_day1_below_kills_pixel (c : Nat → ℚ) (h : c 1 < threshold c) :
    eosDoy c = 0 ∧
      maskedTriple (sosDoy c) (eosDoy c) (peakDoy c) = (none, none, none) :=
  eos_zero_and_masked h

/-- Witness for C3 on the bump curve, whose day-1 value 0 is below its
threshold 1/2. -/
theorem claim3_day1_below_kills_pixel_witness :
    bump 1 < threshold bump ∧ eosDoy bump = 0 := by
  have h : bump 1 < threshold bump := by
    rw [threshold_bump]
    norm_num [bump]
  exact ⟨h, (claim3_day1_below_kills_pixel bump h).1⟩

/-! ### Claim C8 -/

/-- C8.  For every perfectly flat daily curve the amplitude is `0` and both
`sos_doy` and `eos_doy` degenerate to sentinels (`1000` and `999`) outside
the valid day-of-year range `1..366`, each rejected by the validity mask;
the record is returned, not raised. -/
theorem claim8_flat_curve_undefined (c : Nat → ℚ) (v : ℚ)
    (h : ∀ d ∈ days, c d = v) :
    amplitude c = 0 ∧ sosDoy c = 1000 ∧ eosDoy c = 999 ∧
      (∀ e, validMask (sosDoy c) e = false) ∧
      (∀ s, validMask s (eosDoy c) = false) := by
  have hmin : minNdvi c = v := minNdvi_const h
  have hmax : maxNdvi c = v := maxNdvi_const h
  have hamp : amplitude c = 0 := by
    rw [amplitude, hmin, hmax]
    ring
  have hthr : threshold c = v := by
    rw [threshold, hamp, hmin]
    ring
  have hsos : sosDoy c = 1000 := by
    apply sosDoy_no_above
    intro d hd
    rw [hthr, h d hd]
    exact lt_irrefl v
  have heos : eosDoy c = 999 := by
    apply eosDoy_no_below
    intro d hd
    rw [hthr, h d hd]
    exact lt_irrefl v
  refine ⟨hamp, hsos, heos, ?_, ?_⟩
  · intro e
    rw [hsos]
    rfl
  · intro s
    rw [heos]
    simp [validMask]

/-- Witness for C8 on the constant curve with value 7. -/
theorem claim8_flat_curve_undefined_witness :
    amplitude flat7 = 0 ∧ sosDoy flat7 = 1000 ∧ eosDoy flat7 = 999 := by
  have h := claim8_flat_curve_undefined flat7 7 (fun _ _ => rfl)
  exact ⟨h.1, h.2.1, h.2.2.1⟩

/-! ### Claim C1 -/

/-- C1 fails on the code: evaluation of the EOS scan on the bump curve,
which exceeds its threshold exactly on the contiguous day range
`[100, 200]`.  The claimed `eos_doy` is the last above-threshold day, 200
(day 200 is above the threshold and every above-threshold day is at most
200), but the code returns `0`, because the scan `senescence_phase` picks
the first below-threshold day of the whole year — day 1 — and subtracts
one; the validity mask then voids the whole pixel-year. -/
theorem claim1_eos_bug_on_bump :
    eosDoy bump = 0 ∧ threshold bump < bump 200 ∧
      (∀ d, d ∈ days → threshold bump < bump d → d ≤ 200) ∧
      maskedTriple (sosDoy bump) (eosDoy bump) (peakDoy bump) =
        (none, none, none) := by
  have h : bump 1 < threshold bump := by
    rw [threshold_bump]
    norm_num [bump]
  obtain ⟨h0, hmask⟩ := eos_zero_and_masked h
  refine ⟨h0, ?_, ?_, hmask⟩
  · rw [threshold_bump]
    norm_num [bump]
  · intro d _ hab
    rw [threshold_bump] at hab
    by_contra hgt
    push_neg at hgt
    have hz : bump d = 0 := by
      unfold bump
      rw [if_neg (by omega)]
    rw [hz] at hab
    norm_num at hab

/-! ### Trend lemmas and claims C4, C5, C6 -/

/-- Summing a constant map multiplies the constant by the length. -/
theorem sum_map_const (xs : List ℚ) (v : ℚ) :
    (xs.map fun _ => v).sum = xs.length * v := by
  induction xs with
  | nil => simp
  | cons a as ih =>
    simp only [List.map_cons, List.sum_cons, ih, List.length_cons]
    push_cast
    ring

/-- The mean of a nonempty constant list is the constant. -/
theorem qmean_const (xs : List ℚ) (v : ℚ) (h : xs ≠ []) :
    qmean (xs.map fun _ => v) = v := by
  rw [qmean, sum_map_const, List.length_map]
  have hn : (xs.length : ℚ) ≠ 0 := by
    simp only [ne_eq, Nat.cast_eq_zero, List.length_eq_zero]
    exact h
  field_simp

/-- The OLS slope of any constant series is zero. -/
theorem slopeOfPairs_const (xs : List ℚ) (v : ℚ) :
    slopeOfPairs (xs.map fun x => (x, v)) = 0 := by
  rcases eq_or_ne xs [] with h | h
  · subst h
    norm_num [slopeOfPairs, qmean]
  · have hsnd : ((xs.map fun x => (x, v)).map Prod.snd) = xs.map fun _ => v := by
      rw [List.map_map]
      rfl
    have hym : qmean ((xs.map fun x => (x, v)).map Prod.snd) = v := by
      rw [hsnd, qmean_const xs v h]
    unfold slopeOfPairs
    rw [hym]
    have hmap : ((xs.map fun x => (x, v)).map fun p =>
        (p.1 - qmean ((xs.map fun x => (x, v)).map Prod.fst)) * (p.2 - v)) =
        List.replicate xs.length 0 := by
      rw [List.map_map]
      simp [Function.comp_def]
    rw [hmap, List.sum_replicate, smul_zero, zero_div]

/-- C6.  A pixel whose series has at most 5 valid (non-NaN) years keeps the
NaN sentinel slope — the regression is never attempted and nothing fails —
and conversely any computed slope implies strictly more than 5 valid
years. -/
theorem claim6_min_valid_years (s : List (Option ℚ)) :
    (validCount s ≤ 5 → pixelSlope s = none) ∧
      ∀ q, pixelSlope s = some q → 5 < validCount s := by
  constructor
  · intro h
    rw [pixelSlope, if_neg (by omega)]
  · intro q hq
    by_contra hcon
    push_neg at hcon
    rw [pixelSlope, if_neg (by omega)] at hq
    exact Option.noConfusion hq

/-- Witness for C6 at a two-year series with a single valid year. -/
theorem claim6_min_valid_years_witness :
    validCount [some (1 : ℚ), none] ≤ 5 ∧ pixelSlope [some (1 : ℚ), none] = none :=
  ⟨by decide, (claim6_min_valid_years [some (1 : ℚ), none]).1 (by decide)⟩

/-- C4 fails on the code: evaluation at `series7of8`, which has 7 > 5 valid
years and one missing year.  The guard counts only the valid years, but the
full NaN-bearing series is handed to `linregress`, whose slope is then NaN
(`none`) — the missing year poisons the result — whereas the least-squares
slope over exactly the valid `(year, value)` pairs is defined and equals
2. -/
theorem claim4_missing_year_poisons_ols :
    5 < validCount series7of8 ∧ pixelSlope series7of8 = none ∧
      validPairs series7of8 = [(0, 10), (1, 12), (2, 14), (3, 16), (4, 18), (5, 20), (6, 22)] ∧
      slopeOfPairs (validPairs series7of8) = 2 := by
  have hvp : validPairs series7of8 =
      [(0, 10), (1, 12), (2, 14), (3, 16), (4, 18), (5, 20), (6, 22)] := by
    norm_num [validPairs, validPairsFrom, series7of8]
  refine ⟨by decide, by decide, hvp, ?_⟩
  rw [hvp]
  norm_num [slopeOfPairs, qmean]

/-- C5.  The OLS slope of the perfectly linear series `10, 12, 14, 16, 18`
at year indices `0..4` is `2` with label `increasing`, and the slope of any
constant series is `0` with label `no_trend`. -/
theorem claim5_ols_linear_and_constant (xs : List ℚ) (v : ℚ) :
    slopeOfPairs [(0, 10), (1, 12), (2, 14), (3, 16), (4, 18)] = 2 ∧
      olsTrendLabel (slopeOfPairs [(0, 10), (1, 12), (2, 14), (3, 16), (4, 18)]) =
        TrendLabel.increasing ∧
      slopeOfPairs (xs.map fun x => (x, v)) = 0 ∧
      olsTrendLabel (slopeOfPairs (xs.map fun x => (x, v))) = TrendLabel.noTrend := by
  have h1 : slopeOfPairs [((0 : ℚ), (10 : ℚ)), (1, 12), (2, 14), (3, 16), (4, 18)] = 2 := by
    norm_num [slopeOfPairs, qmean]
  have h2 := slopeOfPairs_const xs v
  refine ⟨h1, ?_, h2, ?_⟩
  · rw [h1]
    rfl
  · rw [h2]
    rfl

/-! ### Zonal aggregation lemmas and claim C10 -/

/-- Unfolding of the cleaning filter into its three conditions. -/
theorem keepRow_eq_true_iff (lcNd : Option ℤ) (excl : List ℤ) (r : ℤ × Option ℚ) :
    keepRow lcNd excl r = true ↔
      (∀ n, lcNd = some n → r.1 ≠ n) ∧ r.2.isSome ∧ r.1 ∉ excl := by
  cases lcNd with
  | none =>
    simp only [keepRow, Bool.and_eq_true, decide_eq_true_eq]
    constructor
    · rintro ⟨⟨-, hs⟩, hx⟩
      exact ⟨fun n hn => Option.noConfusion hn, hs, hx⟩
    · rintro ⟨-, hs, hx⟩
      exact ⟨⟨trivial, hs⟩, hx⟩
  | some n =>
    simp only [keepRow, Bool.and_eq_true, decide_eq_true_eq]
    constructor
    · rintro ⟨⟨hne, hs⟩, hx⟩
      refine ⟨fun m hm => ?_, hs, hx⟩
      injection hm with hnm
      rw [← hnm]
      exact hne
    · rintro ⟨h1, hs, hx⟩
      exact ⟨⟨h1 n rfl, hs⟩, hx⟩

/-- Restricting the cleaned rows to one admissible class and dropping the
missing values gives exactly the class's contributing values: on such rows
the cleaning filter does nothing more than the `filterMap` already does. -/
theorem filtered_class_values (lcNd : Option ℤ) (excl : List ℤ) (cl : ℤ)
    (hnd : ∀ n, lcNd = some n → cl ≠ n) (hex : cl ∉ excl) :
    ∀ rows : List (ℤ × Option ℚ),
      (((rows.filter (keepRow lcNd excl)).filter fun r =>
          decide (r.1 = cl)).filterMap Prod.snd) =
        ((rows.filter fun r => decide (r.1 = cl)).filterMap Prod.snd) := by
  intro rows
  induction rows with
  | nil => rfl
  | cons r rs ih =>
    have ih2 := ih
    simp only [List.filter_filter] at ih2
    by_cases hcl : r.1 = cl
    · cases hval : r.2 with
      | none =>
        have hkeep : keepRow lcNd excl r = false := by
          simp [keepRow, hval]
        simp [List.filter_cons, List.filterMap_cons, hkeep, hcl, hval, ih2]
      | some v =>
        have hkeep : keepRow lcNd excl r = true :=
          (keepRow_eq_true_iff lcNd excl r).mpr
            ⟨fun n hn => by rw [hcl]; exact hnd n hn, by rw [hval]; rfl,
              by rw [hcl]; exact hex⟩
        simp [List.filter_cons, List.filterMap_cons, hkeep, hcl, hval, ih2]
    · by_cases hkeep : keepRow lcNd excl r = true
      · simp [List.filter_cons, hkeep, hcl, ih2]
      · rw [Bool.not_eq_true] at hkeep
        simp [List.filter_cons, hkeep, hcl, ih2]

/-- C10.  Membership in the zonal summary is characterised by the claim:
a pair `(cl, m)` appears exactly when `cl` is not the land-cover nodata
value, `cl` is not excluded, `cl` has at least one contributing pixel (valid
metric value over class `cl`), and `m` is the arithmetic mean of exactly
those contributing values; consequently an excluded class never appears; on
the spec's 2x2 example (metric `[1,2,3,4]`, zones `[A,A,B,B]`, no
exclusions) the output means are `3/2` for class A and `7/2` for class B. -/
theorem claim10_zonal_mean_characterisation :
    (∀ (lc : List ℤ) (metric : List (Option ℚ)) (lcNd : Option ℤ) (excl : List ℤ)
        (cl : ℤ) (m : ℚ),
      ((cl, m) ∈ zonalMeans lc metric lcNd excl ↔
        (∀ n, lcNd = some n → cl ≠ n) ∧ cl ∉ excl ∧
          classValues lc metric cl ≠ [] ∧ m = qmean (classValues lc metric cl))) ∧
    (∀ (lc : List ℤ) (metric : List (Option ℚ)) (lcNd : Option ℤ) (excl : List ℤ)
        (cl : ℤ) (m : ℚ),
      cl ∈ excl → (cl, m) ∉ zonalMeans lc metric lcNd excl) ∧
    zonalMeans exZones exMetric none [] = [(5, 3 / 2), (9, 7 / 2)] := by
  have hmain : ∀ (lc : List ℤ) (metric : List (Option ℚ)) (lcNd : Option ℤ)
      (excl : List ℤ) (cl : ℤ) (m : ℚ),
      ((cl, m) ∈ zonalMeans lc metric lcNd excl ↔
        (∀ n, lcNd = some n → cl ≠ n) ∧ cl ∉ excl ∧
          classValues lc metric cl ≠ [] ∧ m = qmean (classValues lc metric cl)) := by
    intro lc metric lcNd excl cl m
    constructor
    · intro h
      rw [zonalMeans] at h
      obtain ⟨c, hc, heq⟩ := List.mem_map.mp h
      rw [Prod.mk.injEq] at heq
      obtain ⟨hc1, hm2⟩ := heq
      rw [hc1] at hc hm2
      have hc2 : cl ∈ ((zonalRows lc metric).filter (keepRow lcNd excl)).map Prod.fst :=
        List.mem_dedup.mp hc
      obtain ⟨r, hrf, hr1⟩ := List.mem_map.mp hc2
      have hrr := List.mem_filter.mp hrf
      obtain ⟨hnd_r, hsome, hex_r⟩ := (keepRow_eq_true_iff lcNd excl r).mp hrr.2
      have hnd : ∀ n, lcNd = some n → cl ≠ n := by
        intro n hn
        rw [← hr1]
        exact hnd_r n hn
      have hex : cl ∉ excl := by
        rw [← hr1]
        exact hex_r
      obtain ⟨v, hv⟩ := Option.isSome_iff_exists.mp hsome
      refine ⟨hnd, hex, ?_, ?_⟩
      · apply List.ne_nil_of_mem (a := v)
        rw [classValues]
        apply List.mem_filterMap.mpr
        exact ⟨r, List.mem_filter.mpr ⟨hrr.1, by simp [hr1]⟩, hv⟩
      · rw [← hm2, classValues, filtered_class_values lcNd excl cl hnd hex]
    · rintro ⟨hnd, hex, hne, hm⟩
      obtain ⟨v, hv⟩ := List.exists_mem_of_ne_nil _ hne
      rw [classValues] at hv
      obtain ⟨r, hr, hsnd⟩ := List.mem_filterMap.mp hv
      have hrr := List.mem_filter.mp hr
      have hr1 : r.1 = cl := by simpa using hrr.2
      have hkeep : keepRow lcNd excl r = true :=
        (keepRow_eq_true_iff lcNd excl r).mpr
          ⟨fun n hn => by rw [hr1]; exact hnd n hn, by rw [hsnd]; rfl,
            by rw [hr1]; exact hex⟩
      rw [zonalMeans]
      apply List.mem_map.mpr
      refine ⟨cl, ?_, ?_⟩
      · apply List.mem_dedup.mpr
        exact List.mem_map.mpr ⟨r, List.mem_filter.mpr ⟨hrr.1, hkeep⟩, hr1⟩
      · simp only [Prod.mk.injEq, true_and]
        rw [filtered_class_values lcNd excl cl hnd hex, ← classValues]
        exact hm.symm
  refine ⟨hmain, ?_, ?_⟩
  · intro lc metric lcNd excl cl m hex hmem
    exact ((hmain lc metric lcNd excl cl m).mp hmem).2.1 hex
  · norm_num [zonalMeans, zonalRows, keepRow, qmean, List.filter, List.dedup,
      List.filterMap_cons, exZones, exMetric]

/-- Witness for C10: class 5 of the 2x2 example contributes values `1, 2`
and appears with mean `3/2`. -/
theorem claim10_zonal_mean_characterisation_witness :
    ((5 : ℤ), (3 / 2 : ℚ)) ∈ zonalMeans exZones exMetric none [] := by
  have hval : classValues exZones exMetric 5 = [1, 2] := by
    norm_num [classValues, zonalRows, exZones, exMetric, List.filter, List.filterMap_cons]
  apply (claim10_zonal_mean_characterisation.1 exZones exMetric none [] 5 (3 / 2)).mpr
  refine ⟨fun n hn => Option.noConfusion hn, by simp, ?_, ?_⟩
  · rw [hval]
    simp
  · rw [hval]
    norm_num [qmean]

/-! ### Harmonic fitter claim C7 -/

/-- Simple concrete row-builder for the C7 witness (order `K = 1`): constant
first column, timestamp elsewhere. -/
def b1 : ℚ → Fin (2 * 1 + 1) → ℚ := fun t j => if j = ⟨0, by omega⟩ then 1 else t

/-- C7 (spec-modelled).  The harmonic fit fails with `insufficientData` on
fewer than `2K+2` valid samples; fails with `singularSystem` when all valid
timestamps coincide (the design matrix has equal rows, so its normal matrix
is singular); and any returned coefficient vector (of length `2K+1` by its
type) solves the normal equations of the unregularized least-squares problem
for the design matrix and observation vector. -/
theorem claim7_harmonic_fit_contract (K : Nat) (hK : 1 ≤ K)
    (b : ℚ → Fin (2 * K + 1) → ℚ) (hb : ∀ t, b t ⟨0, by omega⟩ = 1)
    (samples : List (ℚ × Option ℚ)) :
    ((validSamples samples).length < 2 * K + 2 →
      harmonicFit K b samples = .error .insufficientData) ∧
    (2 * K + 2 ≤ (validSamples samples).length →
      (∀ p ∈ validSamples samples, ∀ q ∈ validSamples samples, p.1 = q.1) →
      harmonicFit K b samples = .error .singularSystem) ∧
    (∀ coef, harmonicFit K b samples = .ok coef →
      ((designMatrix K b (validSamples samples)).transpose *
          designMatrix K b (validSamples samples)).mulVec coef =
        (designMatrix K b (validSamples samples)).transpose.mulVec
          (obsVec (validSamples samples))) := by
  refine ⟨?_, ?_, ?_⟩
  · intro h
    simp only [harmonicFit]
    rw [if_pos h]
  · intro hlen hsame
    simp only [harmonicFit]
    rw [if_neg (by omega)]
    have hpos : 0 < (validSamples samples).length := by omega
    have hrow : ∀ (i : Fin (validSamples samples).length) (j : Fin (2 * K + 1)),
        designMatrix K b (validSamples samples) i j =
          b (((validSamples samples).get ⟨0, hpos⟩).1) j := by
      intro i j
      have heq : ((validSamples samples).get i).1 =
          ((validSamples samples).get ⟨0, hpos⟩).1 :=
        hsame _ ((validSamples samples).get_mem i.1 i.2) _
          ((validSamples samples).get_mem 0 hpos)
      rw [designMatrix, Matrix.of_apply, heq]
    have h01 : (0 : Nat) < 2 * K + 1 := by omega
    have h11 : (1 : Nat) < 2 * K + 1 := by omega
    have hne01 : (⟨1, h11⟩ : Fin (2 * K + 1)) ≠ ⟨0, h01⟩ := by
      simp [Fin.ext_iff]
    have hb0 : b (((validSamples samples).get ⟨0, hpos⟩).1) ⟨0, h01⟩ = 1 := hb _
    have hdet : ((designMatrix K b (validSamples samples)).transpose *
        designMatrix K b (validSamples samples)).det = 0 := by
      rw [← Matrix.exists_mulVec_eq_zero_iff]
      refine ⟨Pi.single (⟨0, h01⟩ : Fin (2 * K + 1))
          (b (((validSamples samples).get ⟨0, hpos⟩).1) ⟨1, h11⟩) -
        Pi.single (⟨1, h11⟩ : Fin (2 * K + 1))
          (b (((validSamples samples).get ⟨0, hpos⟩).1) ⟨0, h01⟩), ?_, ?_⟩
      · intro h0
        have h0v := congrFun h0 ⟨1, h11⟩
        rw [Pi.sub_apply, Pi.single_eq_of_ne hne01, Pi.single_eq_same,
          Pi.zero_apply, hb0] at h0v
        norm_num at h0v
      · rw [← Matrix.mulVec_mulVec]
        have hAv : (designMatrix K b (validSamples samples)).mulVec
            (Pi.single (⟨0, h01⟩ : Fin (2 * K + 1))
                (b (((validSamples samples).get ⟨0, hpos⟩).1) ⟨1, h11⟩) -
              Pi.single (⟨1, h11⟩ : Fin (2 * K + 1))
                (b (((validSamples samples).get ⟨0, hpos⟩).1) ⟨0, h01⟩)) = 0 := by
          rw [Matrix.mulVec_sub, Matrix.mulVec_single, Matrix.mulVec_single]
          funext i
          rw [Pi.sub_apply, Pi.zero_apply, hrow i ⟨0, h01⟩, hrow i ⟨1, h11⟩]
          ring
        rw [hAv, Matrix.mulVec_zero]
    rw [if_pos hdet]
  · intro coef hcoef
    simp only [harmonicFit] at hcoef
    by_cases h1 : (validSamples samples).length < 2 * K + 2
    · rw [if_pos h1] at hcoef
      exact Except.noConfusion hcoef
    · rw [if_neg h1] at hcoef
      by_cases h2 : ((designMatrix K b (validSamples samples)).transpose *
          designMatrix K b (validSamples samples)).det = 0
      · rw [if_pos h2] at hcoef
        exact Except.noConfusion hcoef
      · rw [if_neg h2] at hcoef
        injection hcoef with hc
        rw [← hc, Matrix.mulVec_smul, Matrix.mulVec_mulVec, Matrix.mul_adjugate,
          Matrix.smul_mulVec_assoc, Matrix.one_mulVec, smul_smul,
          inv_mul_cancel₀ h2, one_smul]

/-- Witness for C7: the empty observation series has fewer than `2K+2` valid
samples and the fit reports `insufficientData`. -/
theorem claim7_harmonic_fit_contract_witness :
    (validSamples ([] : List (ℚ × Option ℚ))).length < 2 * 1 + 2 ∧
      harmonicFit 1 b1 [] = .error .insufficientData := by
  have h : (validSamples ([] : List (ℚ × Option ℚ))).length < 2 * 1 + 2 := by
    norm_num [validSamples]
  exact ⟨h, (claim7_harmonic_fit_contract 1 (le_refl 1) b1 (fun t => rfl) []).1 h⟩

end Spec2Proof
